import Mathlib

/-!
Verification of the BookBot text-analysis core (`stats.py`).

Texts are modelled as `List Char` (the Python `str`), Python's float
arithmetic in the reading-time estimator as `ℚ` (all quantities involved are
exact small rationals, and on the inputs considered floor/modulo agree with
the float computation), and Python dicts as insertion-ordered association
lists.  Every definition is translated directly from the source of
`stats.py`; the few definitions that instead follow the specification's
wording (for refinement comparisons) say so in their doc comment.
-/

/-- Whitespace characters recognised by Python's `str.split()` (ASCII). -/
def isSpace (c : Char) : Bool :=
  c == ' ' || c == '\t' || c == '\n' || c == '\r' || c == '\x0b' || c == '\x0c'

/-- Python's substring membership `needle in hay`. -/
def occursIn (needle : List Char) : List Char → Bool
  | [] => needle.isEmpty
  | c :: cs => needle.isPrefixOf (c :: cs) || occursIn needle cs

/-- Auxiliary scanner for Python's non-overlapping `str.count`. -/
def countOccsAux (needle : List Char) : List Char → Nat
  | [] => 0
  | c :: cs =>
    if needle.isPrefixOf (c :: cs) then
      1 + countOccsAux needle (cs.drop (needle.length - 1))
    else
      countOccsAux needle cs
termination_by l => l.length
decreasing_by
  · simp only [List.length_drop, List.length_cons]; omega
  · simp only [List.length_cons]; omega

/-- Python's `hay.count(needle)`: non-overlapping occurrence count. -/
def countOccs (needle hay : List Char) : Nat :=
  if needle.isEmpty then hay.length + 1 else countOccsAux needle hay

/-- Accumulator-based splitter behind `str.split()`: `acc` holds the
current (reversed) partial token. -/
def splitWsAux : List Char → List Char → List (List Char)
  | [], acc => if acc.isEmpty then [] else [acc.reverse]
  | c :: cs, acc =>
    if isSpace c then
      if acc.isEmpty then splitWsAux cs [] else acc.reverse :: splitWsAux cs []
    else
      splitWsAux cs (c :: acc)

/-- Python's `text.split()`: tokens between runs of whitespace. -/
def splitWs (text : List Char) : List (List Char) :=
  splitWsAux text []

/-- `get_num_words` from `stats.py`: `len(text.split())`. -/
def get_num_words (text : List Char) : Nat :=
  (splitWs text).length

/-- Independent rendering of the specification's description of word
counting: the number of maximal runs of non-whitespace characters
(`prevWs` records whether the previous character was whitespace, so a run
is counted exactly at its first character). -/
def countRuns (prevWs : Bool) : List Char → Nat
  | [] => 0
  | c :: cs =>
    if isSpace c then countRuns true cs
    else (if prevWs then 1 else 0) + countRuns false cs

/-- `get_chars_dict`'s dictionary update: increment in place, else append. -/
def bump : List (Char × Nat) → Char → List (Char × Nat)
  | [], c => [(c, 1)]
  | (k, v) :: rest, c => if k = c then (k, v + 1) :: rest else (k, v) :: bump rest c

/-- `get_chars_dict` from `stats.py`: lowercased character counts in an
insertion-ordered dictionary (modelled as an association list, first-seen
order preserved like a Python dict). -/
def get_chars_dict (text : List Char) : List (Char × Nat) :=
  text.foldl (fun d c => bump d c.toLower) []

/-- Entry of the ranked character list, the `{"char": .., "num": ..}` dict. -/
structure CharNum where
  char : Char
  num : Nat
deriving DecidableEq

/-- `sort_on` from `stats.py`: the sort key of a character entry. -/
def sort_on (d : CharNum) : Nat :=
  d.num

/-- Stable descending insertion by a `Nat`-valued key: `x` goes in front of
the first element whose key is at most `key x` (so among equal keys the
earlier element of the original list stays first), modelling Python's
stable `list.sort(key=.., reverse=True)`. -/
def insSortKey {α : Type} (key : α → Nat) (x : α) : List α → List α
  | [] => [x]
  | y :: ys => if key y ≤ key x then x :: y :: ys else y :: insSortKey key x ys

/-- Stable descending insertion sort by a `Nat`-valued key. -/
def sortKeyDesc {α : Type} (key : α → Nat) : List α → List α
  | [] => []
  | x :: xs => insSortKey key x (sortKeyDesc key xs)

/-- `chars_dict_to_sorted_list` from `stats.py`: repackage the histogram
into `{"char", "num"}` entries (dictionary order) and stable-sort them by
`sort_on` descending (`sort(reverse=True, key=sort_on)`). -/
def chars_dict_to_sorted_list (num_chars_dict : List (Char × Nat)) : List CharNum :=
  sortKeyDesc sort_on (num_chars_dict.map fun p => ⟨p.1, p.2⟩)

/-- Weighted technical-indicator vocabulary of `detect_technical_content`
(term, weight), in source order. -/
def technical_indicators : List (List Char × Nat) :=
  [("algorithm".toList, 3), ("architecture".toList, 3), ("scalability".toList, 3),
   ("optimization".toList, 3), ("implementation".toList, 3), ("performance".toList, 3),
   ("security".toList, 3), ("protocol".toList, 3),
   ("api".toList, 2), ("framework".toList, 2), ("library".toList, 2),
   ("database".toList, 2), ("server".toList, 2), ("function".toList, 2),
   ("method".toList, 2), ("class".toList, 2), ("object".toList, 2),
   ("variable".toList, 2), ("coding".toList, 2), ("programming".toList, 2),
   ("development".toList, 2), ("software".toList, 2),
   ("system".toList, 1), ("network".toList, 1), ("service".toList, 1),
   ("platform".toList, 1), ("application".toList, 1)]

/-- Programming-language names of `detect_technical_content`. -/
def programming_languages : List (List Char) :=
  ["python".toList, "java".toList, "javascript".toList, "go".toList,
   "rust".toList, "sql".toList, "html".toList, "css".toList]

/-- `detect_technical_content` from `stats.py`: lowercase the text, add the
weight of every indicator present as a substring, add 3 for every
programming language present, and compare the total against 10. -/
def detect_technical_content (text : List Char) : Bool :=
  let text_lower := text.map Char.toLower
  let score₁ : Nat := technical_indicators.foldl
    (fun s p => if occursIn p.1 text_lower then s + p.2 else s) 0
  let score₂ : Nat := programming_languages.foldl
    (fun s t => if occursIn t text_lower then s + 3 else s) score₁
  decide (10 ≤ score₂)

/-- Weighted score as the specification words it: the sum of the weights of
the vocabulary terms present as (case-insensitive) substrings, plus a flat
+3 bonus per programming-language name present.  This is the refinement
counterpart of the accumulating loop in the source. -/
def specWeightedScore (text : List Char) : Nat :=
  let low := text.map Char.toLower
  ((technical_indicators.filter fun p => occursIn p.1 low).map Prod.snd).sum
    + 3 * (programming_languages.filter fun t => occursIn t low).length

/-- Python's built-in `abs` on our rational model of floats. -/
def pyabs (q : ℚ) : ℚ :=
  if q < 0 then -q else q

/-- The inner `format_time` helper of `estimate_reading_time`:
`int(minutes // 60)` is the floor of `minutes / 60` and
`int(minutes % 60)` is the floor of the (non-negative) remainder. -/
def format_time (minutes : ℚ) : String :=
  let hours : Int := ⌊minutes / 60⌋
  let mins : Int := ⌊minutes - 60 * (hours : ℚ)⌋
  if hours > 0 then toString hours ++ "h " ++ toString mins ++ "m"
  else toString mins ++ "m"

/-- `estimate_reading_time` from `stats.py`: word count over a fast/slow
speed pair chosen by the classifier (250/150 wpm technical, 350/200 wpm
general); estimates closer than 30 minutes collapse to a single `~`
estimate at the average, otherwise a `fast - slow` range is reported. -/
def estimate_reading_time (text : List Char) : String :=
  let word_count : ℚ := (get_num_words text : ℚ)
  let speeds : ℚ × ℚ :=
    if detect_technical_content text then (250, 150) else (350, 200)
  let fast_minutes := word_count / speeds.1
  let slow_minutes := word_count / speeds.2
  if pyabs (fast_minutes - slow_minutes) < 30 then
    "~" ++ format_time ((fast_minutes + slow_minutes) / 2)
  else
    format_time fast_minutes ++ " - " ++ format_time slow_minutes

/-- Curated vocabulary of `extract_key_concepts` (written in the source as a
Python set literal, whose iteration order is unspecified; the properties
proved below do not depend on the enumeration order used here). -/
def known_technical_terms : List (List Char) :=
  ["load balancer".toList, "microservice".toList, "monolith".toList,
   "api gateway".toList, "service mesh".toList, "caching".toList,
   "sharding".toList, "replication".toList, "consistency".toList,
   "availability".toList, "cap theorem".toList, "horizontal scaling".toList,
   "vertical scaling".toList,
   "mongodb".toList, "postgresql".toList, "mysql".toList, "redis".toList,
   "elasticsearch".toList, "dynamodb".toList, "cassandra".toList,
   "neo4j".toList, "rdbms".toList, "nosql".toList, "acid".toList, "sql".toList,
   "aws".toList, "azure".toList, "gcp".toList, "kubernetes".toList,
   "docker".toList, "cloudfront".toList, "lambda".toList, "ec2".toList,
   "s3".toList, "rds".toList, "vpc".toList, "cdn".toList,
   "python".toList, "java".toList, "javascript".toList, "typescript".toList,
   "go".toList, "rust".toList, "react".toList, "angular".toList, "vue".toList,
   "spring".toList, "django".toList, "flask".toList, "express".toList,
   "http".toList, "https".toList, "tcp".toList, "udp".toList,
   "websocket".toList, "grpc".toList, "graphql".toList, "rest".toList,
   "api".toList, "json".toList, "xml".toList, "oauth".toList, "jwt".toList,
   "microservices".toList, "event driven".toList, "message queue".toList,
   "pub sub".toList, "circuit breaker".toList, "bulkhead".toList,
   "saga pattern".toList]

/-- Exclusion set of `extract_key_concepts`. -/
def exclusions : List (List Char) :=
  ["afterword".toList, "chapter".toList, "section".toList, "figure".toList,
   "table".toList, "page".toList, "introduction".toList, "conclusion".toList,
   "summary".toList, "appendix".toList, "index".toList,
   "users".toList, "user".toList, "data".toList, "system".toList,
   "service".toList, "web".toList, "store".toList, "drive".toList,
   "file".toList, "time".toList, "way".toList, "example".toList,
   "problem".toList, "solution".toList, "method".toList,
   "information".toList, "result".toList, "process".toList, "work".toList,
   "team".toList, "company".toList]

/-- Upper-case display forms checked by `extract_key_concepts`
(`term.upper() in [...]`). -/
def acronym_forms : List (List Char) :=
  ["API".toList, "HTTP".toList, "HTTPS".toList, "TCP".toList, "UDP".toList,
   "SQL".toList, "JSON".toList, "XML".toList, "JWT".toList, "AWS".toList,
   "GCP".toList, "CDN".toList, "VPC".toList, "RDS".toList, "EC2".toList,
   "S3".toList]

/-- Helper for Python's `str.title()`: a letter starts upper-case exactly
when the previous character was not alphabetic. -/
def titleCaseAux : Bool → List Char → List Char
  | _, [] => []
  | prevAlpha, c :: cs =>
    (if prevAlpha then c.toLower else c.toUpper) :: titleCaseAux c.isAlpha cs

/-- Python's `str.title()` (ASCII). -/
def titleCase (s : List Char) : List Char :=
  titleCaseAux false s

/-- Display normalisation of a curated term in `extract_key_concepts`:
acronyms upper-cased, three brand spellings special-cased, every other
term title-cased. -/
def displayForm (term : List Char) : List Char :=
  if (term.map Char.toUpper) ∈ acronym_forms then term.map Char.toUpper
  else if term = "nosql".toList then "NoSQL".toList
  else if term = "grpc".toList then "gRPC".toList
  else if term = "graphql".toList then "GraphQL".toList
  else titleCase term

/-- Normalisation key used to merge concept variants:
`concept.lower().replace(' ', '').replace('.', '').replace('-', '')`. -/
def normKey (s : List Char) : List Char :=
  (s.map Char.toLower).filter fun c => !(c == ' ' || c == '.' || c == '-')

/-- Association-list lookup for the concept-group dictionary. -/
def getKey : List (List Char × (List Char × Nat)) → List Char → Option (List Char × Nat)
  | [], _ => none
  | (k₀, v₀) :: g, k => if k₀ = k then some v₀ else getKey g k

/-- Association-list assignment for the concept-group dictionary: existing
keys keep their position (Python dict semantics), new keys append. -/
def setKey : List (List Char × (List Char × Nat)) → List Char →
    (List Char × Nat) → List (List Char × (List Char × Nat))
  | [], k, v => [(k, v)]
  | (k₀, v₀) :: g, k, v =>
    if k₀ = k then (k₀, v) :: g else (k₀, v₀) :: setKey g k v

/-- One step of the dedup loop of `extract_key_concepts`: store a candidate
under its normalisation key unless a variant with at least this count is
already stored. -/
def groupStep (g : List (List Char × (List Char × Nat))) (cv : List Char × Nat) :
    List (List Char × (List Char × Nat)) :=
  let k := normKey cv.1
  match getKey g k with
  | none => setKey g k cv
  | some v₀ => if cv.2 > v₀.2 then setKey g k cv else g

/-- Regex `\w`: ASCII word characters. -/
def isWordChar (c : Char) : Bool :=
  c.isAlphanum || c == '_'

/-- Trailing `\b` of the product-name regex: the match must not be followed
by a word character. -/
def bdryAfter : List Char → Bool
  | [] => true
  | c :: _ => !isWordChar c

/-- The alternatives of the product-name regex of `extract_key_concepts`,
in alternation order. -/
def tech_name_patterns : List (List Char) :=
  ["MongoDB".toList, "PostgreSQL".toList, "MySQL".toList, "Redis".toList,
   "Elasticsearch".toList, "DynamoDB".toList, "Cassandra".toList,
   "Neo4j".toList, "CloudFront".toList, "WebSocket".toList,
   "JavaScript".toList, "TypeScript".toList, "Node.js".toList,
   "Next.js".toList, "Spring Boot".toList, "React Native".toList]

/-- Try the regex alternatives at the current position: `prevOk` says the
leading `\b` holds (every alternative starts with a word character). -/
def tryMatch (prevOk : Bool) (l : List Char) : Option (List Char) :=
  if prevOk then
    tech_name_patterns.find? fun n => n.isPrefixOf l && bdryAfter (l.drop n.length)
  else none

/-- Fuel-indexed scan of `re.findall` for the product-name alternation:
non-overlapping, leftmost, first alternative preferred; one unit of fuel
per character suffices since every step consumes at least one character. -/
def findTechAux : Nat → Bool → List Char → List (List Char)
  | 0, _, _ => []
  | _ + 1, _, [] => []
  | fuel + 1, prevOk, c :: cs =>
    match tryMatch prevOk (c :: cs) with
    | some n => n :: findTechAux fuel (!isWordChar (n.getLastD c)) (cs.drop (n.length - 1))
    | none => findTechAux fuel (!isWordChar c) cs

/-- `re.findall(r'\b(?:MongoDB|...)\b', text)` of `extract_key_concepts`. -/
def findTech (text : List Char) : List (List Char) :=
  findTechAux text.length true text

/-- Curated-term pass of `extract_key_concepts`: terms present at least 3
times in the lowercased text, display-cased. -/
def phase1 (low : List Char) : List (List Char × Nat) :=
  known_technical_terms.foldr
    (fun term acc =>
      if occursIn term low then
        if countOccs term low ≥ 3 then (displayForm term, countOccs term low) :: acc
        else acc
      else acc) []

/-- Product-name pass of `extract_key_concepts`: regex hits occurring at
least twice in the original text. -/
def phase2 (text : List Char) : List (List Char × Nat) :=
  (findTech text).foldr
    (fun name acc =>
      if countOccs name text ≥ 2 then (name, countOccs name text) :: acc else acc) []

/-- `extract_key_concepts` before the final slice and count-stripping:
collect both candidate passes, dedup by normalisation key keeping the
highest-count variant, drop excluded or short display forms, and
stable-sort by count descending. -/
def extractPairs (text : List Char) : List (List Char × Nat) :=
  let low := text.map Char.toLower
  let found := phase1 low ++ phase2 text
  let groups := found.foldl groupStep []
  let finals := (groups.map Prod.snd).filter
    fun cv => decide ((cv.1.map Char.toLower) ∉ exclusions ∧ 3 ≤ cv.1.length)
  sortKeyDesc (fun cv => cv.2) finals

/-- `extract_key_concepts` from `stats.py`: the display strings of the top
10 concepts by count. -/
def extract_key_concepts (text : List Char) : List (List Char) :=
  ((extractPairs text).take 10).map Prod.fst

/-- Practical-content markers scanned by `generate_executive_summary`. -/
def practical_markers : List (List Char) :=
  ["example".toList, "tutorial".toList, "how to".toList, "step by step".toList]

/-- Best-practice markers scanned by `generate_executive_summary`. -/
def best_practice_markers : List (List Char) :=
  ["best practice".toList, "pattern".toList, "architecture".toList]

/-- `generate_executive_summary` from `stats.py`: the fixed-order decision
tree over word count, classification, concept count and the two marker
scans, truncated to the first 6 insights. -/
def generate_executive_summary (text : List Char) : List String :=
  let word_count := get_num_words text
  let is_technical := detect_technical_content text
  let concepts := extract_key_concepts text
  let insights₁ :=
    if is_technical then
      ["Technical content - requires focused reading time",
       "Recommended for technical team members and decision makers"]
    else
      ["General content - suitable for broader audience"]
  let insights₂ :=
    if word_count > 100000 then
      ["Comprehensive resource - plan multiple reading sessions",
       "Consider creating team reading schedule"]
    else if word_count > 50000 then
      ["Substantial content - allocate dedicated time blocks"]
    else
      ["Concise content - can be completed in single session"]
  let insights₃ :=
    if concepts.length > 10 then
      ["Covers multiple technologies - good for technology overview",
       "Identify relevant sections for your specific use case"]
    else if concepts.length > 5 then
      ["Focused on specific technology stack"]
    else []
  let insights₄ :=
    if practical_markers.any (fun m => occursIn m (text.map Char.toLower)) then
      ["Contains practical examples - schedule hands-on practice time"]
    else []
  let insights₅ :=
    if best_practice_markers.any (fun m => occursIn m (text.map Char.toLower)) then
      ["Includes best practices - extract actionable guidelines"]
    else []
  (insights₁ ++ insights₂ ++ insights₃ ++ insights₄ ++ insights₅).take 6

/-- A list of words rendered as text with one trailing blank per word. -/
def wordChunkText (ws : List (List Char)) : List Char :=
  (ws.map fun w => w ++ [' ']).flatten

/-- 12500 rounds of four technical words: 50000 words in total. -/
def techWords : List (List Char) :=
  (List.replicate 12500 ["algorithm".toList, "architecture".toList,
    "security".toList, "python".toList]).flatten

/-- Concrete 50000-word technical text used as a witness input. -/
def t50000 : List Char :=
  wordChunkText techWords

/-- Concrete 500-word non-technical text (`"z "` repeated) used as a
witness input. -/
def t500z : List Char :=
  wordChunkText (List.replicate 500 "z".toList)

theorem splitWsAux_length (t : List Char) :
    ∀ acc, (splitWsAux t acc).length =
      (if acc.isEmpty then 0 else 1) + countRuns acc.isEmpty t := by
  induction t with
  | nil =>
    intro acc
    cases acc <;> simp [splitWsAux, countRuns]
  | cons c cs ih =>
    intro acc
    by_cases hc : isSpace c
    · cases acc <;> simp [splitWsAux, hc, countRuns, ih] <;> omega
    · cases acc <;> simp [splitWsAux, hc, countRuns, ih] <;> omega

theorem countRuns_all_space (t : List Char) (h : ∀ c ∈ t, isSpace c = true) :
    countRuns true t = 0 := by
  induction t with
  | nil => rfl
  | cons c cs ih =>
    have hc : isSpace c = true := h c (by simp)
    simp only [countRuns, hc, if_true]
    exact ih fun x hx => h x (by simp [hx])

/-- C8: `get_num_words` returns the number of non-empty tokens obtained by
splitting on runs of whitespace (equivalently, the number of maximal
non-whitespace runs), and every whitespace-only or empty string yields 0. -/
theorem claim_C8 (text : List Char) :
    get_num_words text = countRuns true text ∧
      ((∀ c ∈ text, isSpace c = true) → get_num_words text = 0) := by
  have h := splitWsAux_length text []
  simp only [List.isEmpty_nil, if_true, Nat.zero_add] at h
  refine ⟨h, fun hall => ?_⟩
  rw [get_num_words, splitWs, h]
  exact countRuns_all_space text hall

/-- Witness for C8 at the whitespace-only string `" \t\n"`. -/
theorem claim_C8_witness : get_num_words " \t\n".toList = 0 :=
  (claim_C8 " \t\n".toList).2 (by decide)

theorem occursIn_iff (needle : List Char) :
    ∀ hay, occursIn needle hay = true ↔ needle <:+: hay := by
  intro hay
  induction hay with
  | nil =>
    simp [occursIn, List.isEmpty_iff, List.infix_nil]
  | cons c cs ih =>
    simp only [occursIn, Bool.or_eq_true, ih, List.infix_cons_iff,
      List.isPrefixOf_iff_prefix]

theorem occursIn_append_left (needle h s : List Char)
    (hh : occursIn needle h = true) : occursIn needle (h ++ s) = true := by
  rw [occursIn_iff] at hh ⊢
  exact hh.trans ((List.prefix_append h s).isInfix)

theorem occursIn_append_right (needle h s : List Char)
    (hh : occursIn needle h = true) : occursIn needle (s ++ h) = true := by
  rw [occursIn_iff] at hh ⊢
  exact hh.trans ((List.suffix_append s h).isInfix)

theorem occursIn_trans (a b c : List Char) (h₁ : occursIn a b = true)
    (h₂ : occursIn b c = true) : occursIn a c = true := by
  rw [occursIn_iff] at h₁ h₂ ⊢
  exact h₁.trans h₂

theorem occursIn_map (f : Char → Char) (needle hay : List Char)
    (h : occursIn needle hay = true) :
    occursIn (needle.map f) (hay.map f) = true := by
  rw [occursIn_iff] at h ⊢
  exact h.map f

theorem occursIn_subset (needle hay : List Char)
    (h : occursIn needle hay = true) : ∀ c ∈ needle, c ∈ hay := by
  rw [occursIn_iff] at h
  exact fun c hc => h.subset hc

/-- A needle containing a character outside the hay's character set cannot
occur in the hay. -/
theorem occursIn_eq_false (needle hay : List Char) (good : Char → Prop)
    (hhay : ∀ c ∈ hay, good c) (hbad : ∃ c ∈ needle, ¬good c) :
    occursIn needle hay = false := by
  rcases hbad with ⟨c, hc, hng⟩
  cases hocc : occursIn needle hay with
  | false => rfl
  | true => exact absurd (hhay c (occursIn_subset needle hay hocc c hc)) hng

theorem insSortKey_perm {α : Type} (key : α → Nat) (x : α) :
    ∀ l, List.Perm (insSortKey key x l) (x :: l) := by
  intro l
  induction l with
  | nil => simp [insSortKey]
  | cons y ys ih =>
    by_cases h : key y ≤ key x
    · simp [insSortKey, h]
    · simp only [insSortKey, h, if_false]
      exact (ih.cons y).trans (List.Perm.swap x y ys)

theorem sortKeyDesc_perm {α : Type} (key : α → Nat) :
    ∀ l, List.Perm (sortKeyDesc key l) l := by
  intro l
  induction l with
  | nil => rfl
  | cons x xs ih =>
    exact (insSortKey_perm key x (sortKeyDesc key xs)).trans (ih.cons x)

theorem head_insSortKey {α : Type} (key : α → Nat) (x : α) (l : List α) :
    (insSortKey key x l).head? = some x ∨ (insSortKey key x l).head? = l.head? := by
  cases l with
  | nil => left; rfl
  | cons y ys =>
    by_cases h : key y ≤ key x
    · left; simp [insSortKey, h]
    · right; simp [insSortKey, h]

theorem chain'_insSortKey {α : Type} (key : α → Nat) (x : α) :
    ∀ l, List.Chain' (fun a b => key b ≤ key a) l →
      List.Chain' (fun a b => key b ≤ key a) (insSortKey key x l) := by
  intro l
  induction l with
  | nil => intro _; simp [insSortKey]
  | cons y ys ih =>
    intro h
    by_cases hxy : key y ≤ key x
    · simp only [insSortKey, hxy, if_true]
      exact h.cons hxy
    · simp only [insSortKey, hxy, if_false]
      have htail : List.Chain' (fun a b => key b ≤ key a) (insSortKey key x ys) :=
        ih h.tail
      refine List.chain'_cons'.mpr ⟨?_, htail⟩
      intro z hz
      rcases head_insSortKey key x ys with hh | hh
      · rw [hh] at hz
        simp only [Option.mem_def, Option.some.injEq] at hz
        subst hz
        omega
      · rw [hh] at hz
        cases ys with
        | nil => simp at hz
        | cons w ws =>
          simp only [List.head?_cons, Option.mem_def, Option.some.injEq] at hz
          subst hz
          exact (List.chain'_cons.mp h).1

theorem chain'_sortKeyDesc {α : Type} (key : α → Nat) :
    ∀ l, List.Chain' (fun a b => key b ≤ key a) (sortKeyDesc key l) := by
  intro l
  induction l with
  | nil => simp [sortKeyDesc]
  | cons x xs ih => exact chain'_insSortKey key x _ ih

theorem filter_insSortKey {α : Type} (key : α → Nat) (x : α) (v : Nat) :
    ∀ l, (insSortKey key x l).filter (fun a => key a == v) =
      if key x == v then x :: l.filter (fun a => key a == v)
      else l.filter (fun a => key a == v) := by
  intro l
  induction l with
  | nil =>
    by_cases hx : (key x == v) = true <;> simp [insSortKey, List.filter_cons, hx]
  | cons y ys ih =>
    by_cases hxy : key y ≤ key x
    · by_cases hx : (key x == v) = true <;>
        simp [insSortKey, hxy, List.filter_cons, hx]
    · have hlt : key x < key y := Nat.lt_of_not_le hxy
      by_cases hx : (key x == v) = true
      · have hxv : key x = v := by simpa using hx
        have hy : (key y == v) = false := by
          simp only [beq_eq_false_iff_ne, ne_eq]
          omega
        simp [insSortKey, hxy, List.filter_cons, hx, hy, ih]
      · by_cases hy : (key y == v) = true <;>
          simp [insSortKey, hxy, List.filter_cons, hx, hy, ih]

theorem filter_sortKeyDesc {α : Type} (key : α → Nat) (v : Nat) :
    ∀ l, (sortKeyDesc key l).filter (fun a => key a == v) =
      l.filter (fun a => key a == v) := by
  intro l
  induction l with
  | nil => rfl
  | cons x xs ih =>
    rw [sortKeyDesc, filter_insSortKey]
    by_cases hx : (key x == v) = true <;> simp [List.filter_cons, hx, ih]

/-- C7: the ranked character list is a permutation of the histogram
entries, adjacent counts are non-increasing, and entries of any fixed
count keep the histogram's insertion order (first occurrence in the text),
i.e. the sort is stable. -/
theorem claim_C7 (text : List Char) :
    List.Perm (chars_dict_to_sorted_list (get_chars_dict text))
        ((get_chars_dict text).map fun p => CharNum.mk p.1 p.2) ∧
      List.Chain' (fun a b => sort_on b ≤ sort_on a)
        (chars_dict_to_sorted_list (get_chars_dict text)) ∧
      ∀ v, (chars_dict_to_sorted_list (get_chars_dict text)).filter
          (fun a => sort_on a == v) =
        ((get_chars_dict text).map fun p => CharNum.mk p.1 p.2).filter
          (fun a => sort_on a == v) := by
  refine ⟨sortKeyDesc_perm sort_on _, chain'_sortKeyDesc sort_on _, fun v => ?_⟩
  exact filter_sortKeyDesc sort_on v _

theorem foldl_score_eq {α : Type} (cond : α → Bool) (w : α → Nat) :
    ∀ (l : List α) (a : Nat),
      l.foldl (fun s p => if cond p then s + w p else s) a
        = a + ((l.filter cond).map w).sum := by
  intro l
  induction l with
  | nil => intro a; simp
  | cons x xs ih =>
    intro a
    by_cases hx : cond x = true <;>
      simp [List.foldl_cons, List.filter_cons, hx, ih, Nat.add_assoc]

theorem sum_map_const_three {α : Type} :
    ∀ l : List α, (l.map fun _ => (3 : Nat)).sum = 3 * l.length := by
  intro l
  induction l with
  | nil => rfl
  | cons x xs ih => simp [ih]; omega

/-- The classifier equals the threshold test on the specification's score. -/
theorem detect_iff (text : List Char) :
    detect_technical_content text = true ↔ 10 ≤ specWeightedScore text := by
  simp only [detect_technical_content, specWeightedScore]
  rw [foldl_score_eq, foldl_score_eq, sum_map_const_three]
  rw [decide_eq_true_iff]
  constructor <;> intro h <;> omega

/-- C1: `detect_technical_content` returns true exactly when the weighted
score of the specification — weights of present vocabulary terms
(presence, not occurrence count) plus a flat +3 per programming language
present — is at least 10. -/
theorem claim_C1 (text : List Char) :
    detect_technical_content text = true ↔ 10 ≤ specWeightedScore text :=
  detect_iff text

theorem sublist_sum_le : ∀ {l₁ l₂ : List Nat}, List.Sublist l₁ l₂ → l₁.sum ≤ l₂.sum := by
  intro l₁ l₂ h
  induction h with
  | slnil => exact Nat.le_refl 0
  | cons a _ ih => simpa using Nat.le_trans ih (Nat.le_add_left _ a)
  | cons₂ a _ ih => simpa using ih

theorem specWeightedScore_mono (t s : List Char) :
    specWeightedScore t ≤ specWeightedScore (t ++ s) := by
  simp only [specWeightedScore]
  have hmap : (t ++ s).map Char.toLower = t.map Char.toLower ++ s.map Char.toLower :=
    List.map_append _ _ _
  have himp : ∀ u : List Char,
      occursIn u (t.map Char.toLower) = true →
        occursIn u ((t ++ s).map Char.toLower) = true := by
    intro u hu
    rw [hmap]
    exact occursIn_append_left _ _ _ hu
  have h₁ : List.Sublist
      (technical_indicators.filter fun p => occursIn p.1 (t.map Char.toLower))
      (technical_indicators.filter fun p => occursIn p.1 ((t ++ s).map Char.toLower)) :=
    List.monotone_filter_right _ fun p hp => himp p.1 hp
  have h₂ : List.Sublist
      (programming_languages.filter fun u => occursIn u (t.map Char.toLower))
      (programming_languages.filter fun u => occursIn u ((t ++ s).map Char.toLower)) :=
    List.monotone_filter_right _ fun u hu => himp u hu
  have hs := sublist_sum_le (h₁.map Prod.snd)
  have hl := h₂.length_le
  omega

/-- C9: a text already classified technical stays technical after appending
further occurrences of high-weight vocabulary terms it already contains
(the score can only grow under appending). -/
theorem claim_C9 (t : List Char) (ws : List (List Char))
    (hws : ∀ w ∈ ws, ((w, 3) ∈ technical_indicators ∧
      occursIn w (t.map Char.toLower) = true))
    (ht : detect_technical_content t = true) :
    detect_technical_content (t ++ ws.flatten) = true := by
  rw [detect_iff] at ht ⊢
  exact Nat.le_trans ht (specWeightedScore_mono t ws.flatten)

/-- Witness for C9: `"algorithm architecture security python"` is technical
and stays technical after appending another `"algorithm"`. -/
theorem claim_C9_witness :
    detect_technical_content
      ("algorithm architecture security python".toList ++
        ([("algorithm".toList)] : List (List Char)).flatten) = true :=
  claim_C9 "algorithm architecture security python".toList [("algorithm".toList)]
    (by decide) (by decide)

theorem mem_splitWsAux_isInfix (w : List Char) :
    ∀ (t acc : List Char), w ∈ splitWsAux t acc → w <:+: (acc.reverse ++ t) := by
  intro t
  induction t with
  | nil =>
    intro acc hmem
    cases acc with
    | nil => simp [splitWsAux] at hmem
    | cons a as =>
      simp [splitWsAux] at hmem
      subst hmem
      simp
  | cons c cs ih =>
    intro acc hmem
    by_cases hc : isSpace c = true
    · have hcc : w <:+: cs → w <:+: acc.reverse ++ c :: cs := by
        intro hw
        refine hw.trans (((List.suffix_cons c cs).trans (List.suffix_append _ _)).isInfix)
      cases acc with
      | nil =>
        simp only [splitWsAux, hc, if_true, List.isEmpty_nil] at hmem
        have := ih [] hmem
        simpa using hcc (by simpa using this)
      | cons a as =>
        simp [splitWsAux, hc] at hmem
        rcases hmem with rfl | hmem
        · simpa using ((List.prefix_append (a :: as).reverse (c :: cs)).isInfix)
        · have := ih [] hmem
          exact hcc (by simpa using this)
    · simp only [splitWsAux, hc, if_false] at hmem
      have := ih (c :: acc) hmem
      rw [List.reverse_cons, List.append_assoc] at this
      simpa using this

theorem mem_splitWs_occursIn (t w : List Char) (h : w ∈ splitWs t) :
    occursIn w t = true := by
  rw [occursIn_iff]
  have := mem_splitWsAux_isInfix w t [] h
  simpa using this

/-- A text whose lowercasing contains "algorithm", "architecture" and
"security" scores at least 10: the three weight-3 indicators give 9, and
the unanchored language scan finds "go" inside "algorithm" for +3. -/
theorem score_ge_ten_of_three (text : List Char)
    (halg : occursIn "algorithm".toList (text.map Char.toLower) = true)
    (harch : occursIn "architecture".toList (text.map Char.toLower) = true)
    (hsec : occursIn "security".toList (text.map Char.toLower) = true) :
    10 ≤ specWeightedScore text := by
  have hgo : occursIn "go".toList (text.map Char.toLower) = true :=
    occursIn_trans _ _ _ (by decide) halg
  simp only [specWeightedScore]
  have hsub : List.Sublist
      [("algorithm".toList, (3:Nat)), ("architecture".toList, 3), ("security".toList, 3)]
      (technical_indicators.filter
        fun p => occursIn p.1 (text.map Char.toLower)) := by
    have h₁ : List.Sublist
        [("algorithm".toList, (3:Nat)), ("architecture".toList, 3), ("security".toList, 3)]
        technical_indicators := by decide
    have h₂ := h₁.filter (fun p => occursIn p.1 (text.map Char.toLower))
    rwa [List.filter_eq_self.mpr ?_] at h₂
    intro p hp
    simp only [List.mem_cons, List.not_mem_nil, or_false] at hp
    rcases hp with rfl | rfl | rfl
    · exact halg
    · exact harch
    · exact hsec
  have hsum := sublist_sum_le (hsub.map Prod.snd)
  simp only [List.map_cons, List.map_nil, List.sum_cons, List.sum_nil] at hsum
  have hlen : 0 < (programming_languages.filter
      fun u => occursIn u (text.map Char.toLower)).length := by
    refine List.length_pos.mpr (List.ne_nil_of_mem (a := "go".toList) ?_)
    exact List.mem_filter.mpr ⟨by decide, by simpa using hgo⟩
  omega

/-- C4: any whitespace-separated arrangement of "algorithm" (5 times),
"architecture" (3 times) and "security" (3 times) scores at least 10 — the
three weight-3 terms give 9 and the unanchored language scan finds "go"
inside "algorithm" for a further +3 — so it is classified technical. -/
theorem claim_C4 (text : List Char)
    (h : List.Perm (splitWs text)
      (List.replicate 5 "algorithm".toList ++ List.replicate 3 "architecture".toList
        ++ List.replicate 3 "security".toList)) :
    10 ≤ specWeightedScore text ∧ detect_technical_content text = true := by
  have low : ∀ u : List Char, u.map Char.toLower = u → occursIn u text = true →
      occursIn u (text.map Char.toLower) = true := by
    intro u hu hocc
    have := occursIn_map Char.toLower u text hocc
    rwa [hu] at this
  have halg := low "algorithm".toList (by decide)
    (mem_splitWs_occursIn _ _ (h.mem_iff.mpr (by decide)))
  have harch := low "architecture".toList (by decide)
    (mem_splitWs_occursIn _ _ (h.mem_iff.mpr (by decide)))
  have hsec := low "security".toList (by decide)
    (mem_splitWs_occursIn _ _ (h.mem_iff.mpr (by decide)))
  have hscore := score_ge_ten_of_three text halg harch hsec
  exact ⟨hscore, (detect_iff text).mpr hscore⟩

/-- Witness for C4 at the canonical arrangement of the eleven words. -/
theorem claim_C4_witness :
    10 ≤ specWeightedScore
        ("algorithm algorithm algorithm algorithm algorithm architecture architecture architecture security security security".toList) ∧
      detect_technical_content
        ("algorithm algorithm algorithm algorithm algorithm architecture architecture architecture security security security".toList) = true := by
  refine claim_C4 _ ?_
  have hsplit : splitWs
      ("algorithm algorithm algorithm algorithm algorithm architecture architecture architecture security security security".toList) =
      List.replicate 5 "algorithm".toList ++ List.replicate 3 "architecture".toList
        ++ List.replicate 3 "security".toList := by decide
  rw [hsplit]

theorem format_time_200 : format_time 200 = "3h 20m" := by
  simp only [format_time]
  rw [show (⌊(200:ℚ)/60⌋:ℤ) = 3 from by rw [Int.floor_eq_iff]; norm_num]
  rw [show (⌊(200:ℚ) - 60 * ((3:ℤ):ℚ)⌋:ℤ) = 20 from by rw [Int.floor_eq_iff]; norm_num]
  rw [if_pos (by norm_num : (3:ℤ) > 0)]
  decide

theorem format_time_zero : format_time 0 = "0m" := by
  simp only [format_time]
  rw [show (⌊(0:ℚ)/60⌋:ℤ) = 0 from by rw [Int.floor_eq_iff]; norm_num]
  rw [show (⌊(0:ℚ) - 60 * ((0:ℤ):ℚ)⌋:ℤ) = 0 from by rw [Int.floor_eq_iff]; norm_num]
  rw [if_neg (by norm_num : ¬ ((0:ℤ) > 0))]
  decide

/-- Any technical text of exactly 50000 words gets the range estimate
`"3h 20m - 5h 33m"`: 50000/250 = 200 minutes and 50000/150 = 333⅓ minutes
differ by more than 30 minutes, so no collapse to a single `~` estimate. -/
theorem estimate_50000_tech (t : List Char) (h1 : get_num_words t = 50000)
    (h2 : detect_technical_content t = true) :
    estimate_reading_time t = "3h 20m - 5h 33m" := by
  have hft : format_time (((50000:ℕ):ℚ) / 250) = "3h 20m" := by
    rw [show (((50000:ℕ):ℚ) / 250) = 200 from by norm_num]
    exact format_time_200
  have hst : format_time (((50000:ℕ):ℚ) / 150) = "5h 33m" := by
    simp only [format_time]
    rw [show (⌊((50000:ℕ):ℚ)/150/60⌋:ℤ) = 5 from by
      rw [Int.floor_eq_iff]; push_cast; norm_num]
    rw [show (⌊((50000:ℕ):ℚ)/150 - 60 * ((5:ℤ):ℚ)⌋:ℤ) = 33 from by
      rw [Int.floor_eq_iff]; push_cast; norm_num]
    rw [if_pos (by norm_num : (5:ℤ) > 0)]
    decide
  have hcond : ¬ (pyabs (((50000:ℕ):ℚ)/250 - ((50000:ℕ):ℚ)/150) < 30) := by
    norm_num [pyabs]
  simp only [estimate_reading_time, h1, h2, if_true]
  rw [if_neg hcond, hft, hst]
  decide

/-- Any text with no words and a non-technical classification gets the
collapsed estimate `"~0m"`. -/
theorem estimate_0_general (t : List Char) (h1 : get_num_words t = 0)
    (h2 : detect_technical_content t = false) :
    estimate_reading_time t = "~0m" := by
  have hcond : pyabs (((0:ℕ):ℚ)/350 - ((0:ℕ):ℚ)/200) < 30 := by
    norm_num [pyabs]
  simp only [estimate_reading_time, h1, h2, Bool.false_eq_true, if_false]
  rw [if_pos hcond]
  rw [show (((0:ℕ):ℚ)/350 + ((0:ℕ):ℚ)/200)/2 = 0 from by norm_num]
  rw [format_time_zero]
  decide

theorem splitWsAux_token (cs : List Char) :
    ∀ (c : Char) (acc rest : List Char), (∀ x ∈ c :: cs, isSpace x = false) →
      splitWsAux ((c :: cs) ++ ' ' :: rest) acc =
        (acc.reverse ++ c :: cs) :: splitWsAux rest [] := by
  induction cs with
  | nil =>
    intro c acc rest h
    have hc : isSpace c = false := h c (by simp)
    have hsp : isSpace ' ' = true := rfl
    simp [splitWsAux, hc, hsp]
  | cons d ds ih =>
    intro c acc rest h
    have hc : isSpace c = false := h c (by simp)
    have h' : ∀ x ∈ d :: ds, isSpace x = false := fun x hx => h x (by simp [hx])
    have hd : isSpace d = false := h' d (by simp)
    have hih := ih d (c :: acc) rest h'
    simp only [List.cons_append, splitWsAux, hc, hd, Bool.false_eq_true,
      if_false] at hih ⊢
    rw [hih]
    simp

theorem wordChunkText_append (a b : List (List Char)) :
    wordChunkText (a ++ b) = wordChunkText a ++ wordChunkText b := by
  simp [wordChunkText]

theorem splitWs_words (ws : List (List Char)) :
    (∀ w ∈ ws, w ≠ [] ∧ ∀ c ∈ w, isSpace c = false) →
      ∀ X, splitWsAux (wordChunkText ws ++ X) [] = ws ++ splitWsAux X [] := by
  induction ws with
  | nil => intro _ X; simp [wordChunkText]
  | cons w ws' ih =>
    intro h X
    obtain ⟨hne, hch⟩ := h w (by simp)
    obtain ⟨c, cs, rfl⟩ := List.exists_cons_of_ne_nil hne
    have hshape : wordChunkText ((c :: cs) :: ws') ++ X =
        (c :: cs) ++ ' ' :: (wordChunkText ws' ++ X) := by
      simp [wordChunkText, List.append_assoc]
    rw [hshape, splitWsAux_token cs c [] _ hch,
      ih (fun u hu => h u (by simp [hu])) X]
    simp

theorem get_num_words_wordChunkText (ws : List (List Char))
    (h : ∀ w ∈ ws, w ≠ [] ∧ ∀ c ∈ w, isSpace c = false) :
    get_num_words (wordChunkText ws) = ws.length := by
  have := splitWs_words ws h []
  rw [List.append_nil] at this
  rw [get_num_words, splitWs, this]
  simp [splitWsAux]

theorem techWords_words :
    ∀ w ∈ techWords, w ≠ [] ∧ ∀ c ∈ w, isSpace c = false := by
  intro w hw
  simp only [techWords] at hw
  rw [List.mem_flatten] at hw
  obtain ⟨l, hl, hwl⟩ := hw
  have hrep := List.eq_of_mem_replicate hl
  subst hrep
  have hall : ∀ u ∈ ["algorithm".toList, "architecture".toList,
      "security".toList, "python".toList], u ≠ [] ∧ ∀ c ∈ u, isSpace c = false := by
    decide
  exact hall w hwl

theorem get_num_words_t50000 : get_num_words t50000 = 50000 := by
  rw [t50000, get_num_words_wordChunkText techWords techWords_words, techWords,
    List.length_flatten, List.map_replicate]
  rw [show List.length ["algorithm".toList, "architecture".toList,
    "security".toList, "python".toList] = 4 from rfl]
  rw [List.sum_replicate, smul_eq_mul]

theorem t50000_split : t50000 =
    wordChunkText ["algorithm".toList, "architecture".toList,
      "security".toList, "python".toList] ++
    wordChunkText ((List.replicate 12499 ["algorithm".toList,
      "architecture".toList, "security".toList, "python".toList]).flatten) := by
  rw [t50000, techWords, show (12500 : Nat) = 12499 + 1 from rfl,
    List.replicate_succ, List.flatten_cons, wordChunkText_append]

theorem detect_t50000 : detect_technical_content t50000 = true := by
  have key : ∀ u : List Char,
      occursIn u (wordChunkText ["algorithm".toList, "architecture".toList,
        "security".toList, "python".toList]) = true →
      occursIn u (t50000.map Char.toLower) = true := by
    intro u hu
    rw [t50000_split, List.map_append]
    apply occursIn_append_left
    rw [show (wordChunkText ["algorithm".toList, "architecture".toList,
        "security".toList, "python".toList]).map Char.toLower =
      wordChunkText ["algorithm".toList, "architecture".toList,
        "security".toList, "python".toList] from by decide]
    exact hu
  exact (detect_iff _).mpr (score_ge_ten_of_three _
    (key _ (by decide)) (key _ (by decide)) (key _ (by decide)))

/-- C2 counterexample: `t50000` is a technical text of exactly 50000 words,
yet `estimate_reading_time` does not return `"4h 10m"` on it (the code
uses the 150-250 wpm range policy, not a single 200 wpm estimate). -/
theorem claim_C2_cex :
    get_num_words t50000 = 50000 ∧ detect_technical_content t50000 = true ∧
      estimate_reading_time t50000 ≠ "4h 10m" := by
  refine ⟨get_num_words_t50000, detect_t50000, ?_⟩
  rw [estimate_50000_tech t50000 get_num_words_t50000 detect_t50000]
  decide

/-- C2 (amended): for every technical text of exactly 50000 words,
`estimate_reading_time` returns the range `"3h 20m - 5h 33m"`
(50000 words at the technical fast speed 250 wpm gives 3h 20m and at the
slow speed 150 wpm gives 5h 33m; the two estimates differ by at least 30
minutes, so the range form is reported). -/
theorem claim_C2 (t : List Char) (h1 : get_num_words t = 50000)
    (h2 : detect_technical_content t = true) :
    estimate_reading_time t = "3h 20m - 5h 33m" :=
  estimate_50000_tech t h1 h2

/-- Witness for C2 at the concrete 50000-word technical text `t50000`. -/
theorem claim_C2_witness : estimate_reading_time t50000 = "3h 20m - 5h 33m" :=
  claim_C2 t50000 get_num_words_t50000 detect_t50000

/-- C3 counterexample: on the empty string the estimator returns the
collapsed range `"~0m"`, not the claimed `"0m"`. -/
theorem claim_C3_cex : estimate_reading_time "".toList ≠ "0m" := by
  rw [estimate_0_general "".toList rfl (by decide)]
  decide

/-- C3 (amended): every core function is total on the empty string:
`get_num_words` gives 0, `get_chars_dict` and `extract_key_concepts` give
empty collections, and `estimate_reading_time` gives `"~0m"` (the range
policy's collapsed zero estimate, with its `~` prefix). -/
theorem claim_C3 :
    get_num_words "".toList = 0 ∧ get_chars_dict "".toList = [] ∧
      extract_key_concepts "".toList = [] ∧
      estimate_reading_time "".toList = "~0m" :=
  ⟨rfl, rfl, by decide, estimate_0_general "".toList rfl (by decide)⟩

/-- C10: the executive summary always has at least 2 insights, and its
first insight is the technical-content sentence when the classifier fires
and the general-content sentence otherwise. -/
theorem claim_C10 (text : List Char) :
    2 ≤ (generate_executive_summary text).length ∧
      (generate_executive_summary text).head? =
        some (if detect_technical_content text then
          "Technical content - requires focused reading time"
        else
          "General content - suitable for broader audience") := by
  constructor
  · simp only [generate_executive_summary, List.length_take, List.length_append]
    repeat' split
    all_goals simp
  · cases hdet : detect_technical_content text with
    | false => simp [generate_executive_summary, hdet]
    | true => simp [generate_executive_summary, hdet]

/-- C5: the executive summary never exceeds 6 insights, and a 500-word,
non-technical, concept-free text with no practical or best-practice
markers gets exactly the general-content and single-session insights. -/
theorem claim_C5 :
    (∀ text, (generate_executive_summary text).length ≤ 6) ∧
      ∀ text, get_num_words text = 500 → detect_technical_content text = false →
        extract_key_concepts text = [] →
        practical_markers.any (fun m => occursIn m (text.map Char.toLower)) = false →
        best_practice_markers.any (fun m => occursIn m (text.map Char.toLower)) = false →
        generate_executive_summary text =
          ["General content - suitable for broader audience",
           "Concise content - can be completed in single session"] := by
  constructor
  · intro text
    simp only [generate_executive_summary]
    exact List.length_take_le _ _
  · intro text h1 h2 h3 h4 h5
    simp [generate_executive_summary, h1, h2, h3, h4, h5]

theorem t500z_chars : ∀ c ∈ t500z, c = 'z' ∨ c = ' ' := by
  intro c hc
  simp only [t500z, wordChunkText] at hc
  rw [List.mem_flatten] at hc
  obtain ⟨l, hl, hcl⟩ := hc
  rw [List.mem_map] at hl
  obtain ⟨w, hw, rfl⟩ := hl
  have := List.eq_of_mem_replicate hw
  subst this
  rcases List.mem_append.mp hcl with h | h
  · left; simpa using h
  · right; simpa using h

theorem t500z_lower_chars : ∀ c ∈ t500z.map Char.toLower, c = 'z' ∨ c = ' ' := by
  intro c hc
  rw [List.mem_map] at hc
  obtain ⟨d, hd, rfl⟩ := hc
  rcases t500z_chars d hd with rfl | rfl
  · left; rfl
  · right; rfl

theorem get_num_words_t500z : get_num_words t500z = 500 := by
  rw [t500z, get_num_words_wordChunkText]
  · exact List.length_replicate 500 _
  · intro w hw
    have := List.eq_of_mem_replicate hw
    subst this
    exact ⟨by decide, by decide⟩

theorem specWeightedScore_t500z : specWeightedScore t500z = 0 := by
  simp only [specWeightedScore]
  have hbad₁ : ∀ p ∈ technical_indicators, ∃ c ∈ p.1, ¬(c = 'z' ∨ c = ' ') := by
    decide
  have hbad₂ : ∀ u ∈ programming_languages, ∃ c ∈ u, ¬(c = 'z' ∨ c = ' ') := by
    decide
  rw [List.filter_eq_nil_iff.mpr ?_, List.filter_eq_nil_iff.mpr ?_]
  · simp
  · intro u hu
    simp only [Bool.not_eq_true]
    exact occursIn_eq_false u _ (fun c => c = 'z' ∨ c = ' ') t500z_lower_chars
      (hbad₂ u hu)
  · intro p hp
    simp only [Bool.not_eq_true]
    exact occursIn_eq_false p.1 _ (fun c => c = 'z' ∨ c = ' ') t500z_lower_chars
      (hbad₁ p hp)

theorem detect_t500z : detect_technical_content t500z = false := by
  cases hdet : detect_technical_content t500z with
  | false => rfl
  | true =>
    have := (detect_iff t500z).mp hdet
    rw [specWeightedScore_t500z] at this
    omega

theorem foldr_skip_nil {α β : Type} (g : α → List β → List β) (cond : α → Bool) :
    ∀ l : List α, (∀ x ∈ l, cond x = false) →
      l.foldr (fun x acc => if cond x then g x acc else acc) [] = [] := by
  intro l
  induction l with
  | nil => intro _; rfl
  | cons x xs ih =>
    intro h
    have hx : cond x = false := h x (by simp)
    simp only [List.foldr_cons, hx, Bool.false_eq_true, if_false]
    exact ih fun y hy => h y (by simp [hy])

theorem findTechAux_nil (good : Char → Prop)
    (hpat : ∀ n ∈ tech_name_patterns, n ≠ [] ∧ ∀ c0 ∈ n.head?, ¬good c0) :
    ∀ (fuel : Nat) (b : Bool) (l : List Char), (∀ c ∈ l, good c) →
      findTechAux fuel b l = [] := by
  intro fuel
  induction fuel with
  | zero => intro b l _; rfl
  | succ fuel ih =>
    intro b l hl
    cases l with
    | nil => rfl
    | cons c cs =>
      have hmatch : tryMatch b (c :: cs) = none := by
        unfold tryMatch
        cases b with
        | false => simp
        | true =>
          simp only [if_true]
          rw [List.find?_eq_none]
          intro n hn
          obtain ⟨hne, hhead⟩ := hpat n hn
          obtain ⟨c0, cs0, rfl⟩ := List.exists_cons_of_ne_nil hne
          have hc0 : ¬good c0 := hhead c0 (by simp)
          have hcg : good c := hl c (by simp)
          have : (c0 == c) = false := by
            cases hbeq : c0 == c with
            | false => rfl
            | true =>
              have : c0 = c := by simpa using hbeq
              subst this
              exact absurd hcg hc0
          simp [List.isPrefixOf, this]
      rw [findTechAux, hmatch]
      exact ih _ cs fun d hd => hl d (by simp [hd])

theorem extract_t500z : extract_key_concepts t500z = [] := by
  have h₁ : phase1 (t500z.map Char.toLower) = [] := by
    unfold phase1
    refine foldr_skip_nil _ _ known_technical_terms ?_
    intro term hterm
    have hbad : ∀ u ∈ known_technical_terms, ∃ c ∈ u, ¬(c = 'z' ∨ c = ' ') := by
      decide
    exact occursIn_eq_false term _ (fun c => c = 'z' ∨ c = ' ') t500z_lower_chars
      (hbad term hterm)
  have h₂ : phase2 t500z = [] := by
    unfold phase2 findTech
    rw [findTechAux_nil (fun c => c = 'z' ∨ c = ' ') (by decide) _ _ _ t500z_chars]
    rfl
  rw [extract_key_concepts, extractPairs]
  simp only [h₁, h₂]
  rfl

theorem markers_t500z :
    practical_markers.any (fun m => occursIn m (t500z.map Char.toLower)) = false ∧
      best_practice_markers.any (fun m => occursIn m (t500z.map Char.toLower)) = false := by
  constructor <;>
  · rw [List.any_eq_false]
    intro m hm
    have hbad : ∀ u ∈ practical_markers ++ best_practice_markers,
        ∃ c ∈ u, ¬(c = 'z' ∨ c = ' ') := by decide
    simp only [Bool.not_eq_true]
    refine occursIn_eq_false m _ (fun c => c = 'z' ∨ c = ' ') t500z_lower_chars
      (hbad m ?_)
    simp [hm]

/-- Witness for C5 at the concrete 500-word text `t500z`. -/
theorem claim_C5_witness :
    generate_executive_summary t500z =
      ["General content - suitable for broader audience",
       "Concise content - can be completed in single session"] :=
  claim_C5.2 t500z get_num_words_t500z detect_t500z extract_t500z
    markers_t500z.1 markers_t500z.2

theorem getKey_none_not_mem (k : List Char) :
    ∀ g, getKey g k = none → ∀ e ∈ g, e.1 ≠ k := by
  intro g
  induction g with
  | nil => intro _ e he; simp at he
  | cons x xs ih =>
    intro h e he
    obtain ⟨k₀, v₀⟩ := x
    by_cases hk : k₀ = k
    · simp [getKey, hk] at h
    · simp only [getKey, hk, if_false] at h
      rcases List.mem_cons.mp he with rfl | he'
      · simpa using hk
      · exact ih h e he'

theorem setKey_mem (k : List Char) (v : List Char × Nat) :
    ∀ g, ∀ e ∈ setKey g k v, e = (k, v) ∨ e ∈ g := by
  intro g
  induction g with
  | nil =>
    intro e he
    simp [setKey] at he
    simp [he]
  | cons x xs ih =>
    intro e he
    obtain ⟨k₀, v₀⟩ := x
    by_cases hk : k₀ = k
    · subst hk
      simp only [setKey, if_true] at he
      rcases List.mem_cons.mp he with rfl | he'
      · left; rfl
      · right; simp [he']
    · simp only [setKey, hk, if_false] at he
      rcases List.mem_cons.mp he with rfl | he'
      · right; simp
      · rcases ih e he' with h | h
        · left; exact h
        · right; simp [h]

theorem map_fst_setKey_mem (k : List Char) (v : List Char × Nat) :
    ∀ g, k ∈ g.map Prod.fst → (setKey g k v).map Prod.fst = g.map Prod.fst := by
  intro g
  induction g with
  | nil => intro h; simp at h
  | cons x xs ih =>
    intro h
    obtain ⟨k₀, v₀⟩ := x
    by_cases hk : k₀ = k
    · simp [setKey, hk]
    · have hcons : k ∈ k₀ :: xs.map Prod.fst := by
        rw [List.map_cons] at h
        exact h
      have hx : k ∈ xs.map Prod.fst := by
        rcases List.mem_cons.mp hcons with h' | h'
        · exact absurd h'.symm hk
        · exact h'
      simp [setKey, hk, ih hx]

theorem map_fst_setKey_not_mem (k : List Char) (v : List Char × Nat) :
    ∀ g, k ∉ g.map Prod.fst →
      (setKey g k v).map Prod.fst = g.map Prod.fst ++ [k] := by
  intro g
  induction g with
  | nil => intro _; simp [setKey]
  | cons x xs ih =>
    intro h
    obtain ⟨k₀, v₀⟩ := x
    have hk : k₀ ≠ k := by
      intro hkk
      exact h (by simp [hkk])
    have hx : k ∉ xs.map Prod.fst := fun hmem => h (by simp [hmem])
    simp [setKey, hk, ih hx]

theorem groupStep_wf (g : List (List Char × (List Char × Nat)))
    (cv : List Char × Nat)
    (h1 : (g.map Prod.fst).Nodup) (h2 : ∀ e ∈ g, normKey e.2.1 = e.1) :
    ((groupStep g cv).map Prod.fst).Nodup ∧
      ∀ e ∈ groupStep g cv, normKey e.2.1 = e.1 := by
  simp only [groupStep]
  split
  next hget =>
    have hnm : normKey cv.1 ∉ g.map Prod.fst := by
      intro hmem
      obtain ⟨e, he, hfst⟩ := List.mem_map.mp hmem
      exact getKey_none_not_mem _ g hget e he hfst
    constructor
    · rw [map_fst_setKey_not_mem _ _ g hnm]
      refine h1.append (List.nodup_singleton _) ?_
      intro a ha hb
      rw [List.mem_singleton] at hb
      subst hb
      exact hnm ha
    · intro e he
      rcases setKey_mem _ _ g e he with rfl | he'
      · rfl
      · exact h2 e he'
  next v₀ hget =>
    have hmem : normKey cv.1 ∈ g.map Prod.fst := by
      have hex : ∃ e ∈ g, e.1 = normKey cv.1 := by
        clear h1 h2
        induction g with
        | nil => simp [getKey] at hget
        | cons x xs ih =>
          obtain ⟨k₀, w₀⟩ := x
          by_cases hk : k₀ = normKey cv.1
          · exact ⟨(k₀, w₀), by simp, hk⟩
          · simp only [getKey, hk, if_false] at hget
            obtain ⟨e, he, hfst⟩ := ih hget
            exact ⟨e, by simp [he], hfst⟩
      obtain ⟨e, he, hfst⟩ := hex
      exact List.mem_map.mpr ⟨e, he, hfst⟩
    by_cases hgt : cv.2 > v₀.2
    · simp only [hgt, if_true]
      constructor
      · rw [map_fst_setKey_mem _ _ g hmem]
        exact h1
      · intro e he
        rcases setKey_mem _ _ g e he with rfl | he'
        · rfl
        · exact h2 e he'
    · simp only [hgt, if_false]
      exact ⟨h1, h2⟩

theorem foldl_groupStep_wf (l : List (List Char × Nat)) :
    ∀ g, (g.map Prod.fst).Nodup → (∀ e ∈ g, normKey e.2.1 = e.1) →
      ((l.foldl groupStep g).map Prod.fst).Nodup ∧
        ∀ e ∈ l.foldl groupStep g, normKey e.2.1 = e.1 := by
  induction l with
  | nil => intro g h1 h2; exact ⟨h1, h2⟩
  | cons cv l ih =>
    intro g h1 h2
    obtain ⟨h1', h2'⟩ := groupStep_wf g cv h1 h2
    exact ih (groupStep g cv) h1' h2'

theorem groups_values_pairwise (g : List (List Char × (List Char × Nat)))
    (h1 : (g.map Prod.fst).Nodup) (h2 : ∀ e ∈ g, normKey e.2.1 = e.1) :
    List.Pairwise (fun a b : List Char × Nat => normKey a.1 ≠ normKey b.1)
      (g.map Prod.snd) := by
  rw [List.pairwise_map]
  have hp : List.Pairwise
      (fun e1 e2 : List Char × (List Char × Nat) => e1.1 ≠ e2.1) g :=
    List.pairwise_map.mp h1
  refine hp.imp_of_mem ?_
  intro a b ha hb hne
  rw [h2 a ha, h2 b hb]
  exact hne

/-- C6: `extract_key_concepts` returns at most 10 entries, no two returned
entries share a normalisation key, and the entries are listed in
non-increasing order of their occurrence counts (witnessed through
`extractPairs`, whose count-annotated prefix of length 10 the result is
the projection of). -/
theorem claim_C6 (text : List Char) :
    (extract_key_concepts text).length ≤ 10 ∧
      List.Pairwise (fun a b => normKey a ≠ normKey b)
        (extract_key_concepts text) ∧
      List.Pairwise (fun a b : List Char × Nat => b.2 ≤ a.2)
        ((extractPairs text).take 10) ∧
      extract_key_concepts text = ((extractPairs text).take 10).map Prod.fst := by
  have hwf := foldl_groupStep_wf
    (phase1 (text.map Char.toLower) ++ phase2 text) [] (by simp) (by simp)
  have hvals := groups_values_pairwise _ hwf.1 hwf.2
  have hpairs : List.Pairwise (fun a b : List Char × Nat => normKey a.1 ≠ normKey b.1)
      (extractPairs text) := by
    simp only [extractPairs]
    refine ((sortKeyDesc_perm (fun cv : List Char × Nat => cv.2) _).pairwise_iff
      (fun hab => Ne.symm hab)).mpr ?_
    exact hvals.sublist (List.filter_sublist _)
  haveI : IsTrans (List Char × Nat) (fun a b => b.2 ≤ a.2) :=
    ⟨fun _ _ _ hab hbc => Nat.le_trans hbc hab⟩
  have hsorted : List.Pairwise (fun a b : List Char × Nat => b.2 ≤ a.2)
      (extractPairs text) := by
    simp only [extractPairs]
    exact List.chain'_iff_pairwise.mp (chain'_sortKeyDesc _ _)
  refine ⟨?_, ?_, hsorted.sublist (List.take_sublist _ _), rfl⟩
  · rw [extract_key_concepts, List.length_map]
    exact List.length_take_le _ _
  · rw [extract_key_concepts, List.pairwise_map]
    exact (hpairs.sublist (List.take_sublist _ _)).imp (fun h => h)
